import Mathlib

set_option maxRecDepth 100000

/-!
Verification of the G-machine virtual CPU and its assembler/tokenizer.

The definitions below are a shallow embedding of the Go sources:
`Machine`, `Machine.Fetch`, `Machine.step` (one iteration of `Machine.Run`'s
fetch/decode/execute loop), `Machine.runFor` (the loop itself, fuel-indexed),
`Machine.Load`, the lexeme-to-token resolution `newToken`, the assembler token
loop `assembleTokens`, and the tokenizer state machine
(`wantToken`/`inToken`/`inRuneLiteral`/`inComment`, merged into the small-step
function `tstep`).

Machine words are Go `uint64` values, embedded as `Nat` with explicit
reduction modulo `2^64` wherever the Go code can wrap.  A Go slice access out
of range is a runtime panic; the embedding makes that a distinguished
`crashed` outcome, separate from `Run` returning a non-nil error
(`errored`) and from `Run` returning nil (`halted`).
-/

namespace GMachine

/-- `2^64`: the modulus of the machine's unsigned 64-bit `Word` arithmetic. -/
def wordMod : Nat := 18446744073709551616

/-- `2^64 - 1`, the largest word value. -/
def wordMax : Nat := 18446744073709551615

/-- Go's wrapping `x--` on `uint64`: subtract 1 modulo `2^64`. -/
def wordDec (x : Nat) : Nat := if x = 0 then wordMax else x - 1

/-- `Word` is Go's `uint64`, embedded as a natural number `< 2^64`. -/
abbrev Word := Nat

-- Opcode constants, from the `OpHALT OpCode = iota + 1` block.
def OpHALT : Word := 1
def OpNOOP : Word := 2
def OpINCA : Word := 3
def OpDECA : Word := 4
def OpSETA : Word := 5
def OpSETI : Word := 6
def OpDECI : Word := 7
def OpJINZ : Word := 8
def OpMVAY : Word := 9
def OpADXY : Word := 10
def OpMVAX : Word := 11
def OpMVYA : Word := 12
def OpOUTA : Word := 13
def OpJUMP : Word := 14
def OpINCI : Word := 15
def OpLDAI : Word := 16
def OpCMPI : Word := 17
def OpJNEQ : Word := 18

/-- A fetched word is decoded as a known opcode exactly when it is one of the
18 enumeration values `1..18` (opcode numbering starts at 1, not 0). -/
def isKnownOp (w : Word) : Bool := 1 ≤ w && w ≤ 18

/-- `OpCode.RequiresArgument` from the source: true for SETA, SETI, JUMP
and JNEQ, false otherwise. -/
def OpCode.RequiresArgument (o : Word) : Bool :=
  o = OpSETA || o = OpSETI || o = OpJUMP || o = OpJNEQ

/-- The default memory size of a freshly constructed machine. -/
def DefaultMemSize : Nat := 1024

/-- The machine state: the word-addressed memory and the register file.
`output` is ghost instrumentation recording the code points written by
`OUTA` to the machine's output stream; it mirrors the `Out` writer. -/
structure Machine where
  Memory : List Word
  A : Word := 0
  I : Word := 0
  P : Word := 0
  X : Word := 0
  Y : Word := 0
  Z : Bool := false
  output : List Word := []
deriving Repr, DecidableEq

/-- `New()`: a fresh machine with `DefaultMemSize` zeroed words and zeroed
registers. -/
def Machine.New : Machine := { Memory := List.replicate DefaultMemSize 0 }

/-- `Machine.Fetch`: read `Memory[P]` and increment `P`.  The Go slice access
panics when `P` is out of range; here that is the `none` result, and the
machine is returned unchanged in that case (the panic happens before `P++`). -/
def Machine.Fetch (g : Machine) : Option (Word × Machine) :=
  match g.Memory.get? g.P with
  | some op => some (op, { g with P := (g.P + 1) % wordMod })
  | none => none

/-- The result of one iteration of `Run`'s loop: continue with a new state,
return nil (HALT), return an "unknown opcode" error, or panic on an
out-of-range memory access. -/
inductive StepRes where
  | next (g : Machine)
  | halted (g : Machine)
  | errored (w : Word) (g : Machine)
  | crashed (g : Machine)
deriving Repr, DecidableEq

/-- The body of `Run`'s `switch op` statement, executing one decoded opcode
against the post-fetch state `g1`. -/
def Machine.exec (op : Word) (g1 : Machine) : StepRes :=
  if op = OpHALT then .halted g1
  else if op = OpNOOP then .next g1
  else if op = OpINCA then .next { g1 with A := (g1.A + 1) % wordMod }
  else if op = OpDECA then .next { g1 with A := wordDec g1.A }
  else if op = OpSETA then
    match g1.Fetch with
    | some (v, g2) => .next { g2 with A := v }
    | none => .crashed g1
  else if op = OpSETI then
    match g1.Fetch with
    | some (v, g2) => .next { g2 with I := v }
    | none => .crashed g1
  else if op = OpDECI then .next { g1 with I := wordDec g1.I }
  else if op = OpJINZ then
    if g1.I ≠ 0 then
      match g1.Fetch with
      | some (v, g2) => .next { g2 with P := v }
      | none => .crashed g1
    else .next { g1 with P := (g1.P + 1) % wordMod }
  else if op = OpMVAY then .next { g1 with Y := g1.A }
  else if op = OpADXY then .next { g1 with Y := (g1.Y + g1.X) % wordMod }
  else if op = OpMVAX then .next { g1 with X := g1.A }
  else if op = OpMVYA then .next { g1 with A := g1.Y }
  else if op = OpOUTA then .next { g1 with output := g1.output ++ [g1.A] }
  else if op = OpJUMP then
    match g1.Fetch with
    | some (v, g2) => .next { g2 with P := v }
    | none => .crashed g1
  else if op = OpINCI then .next { g1 with I := (g1.I + 1) % wordMod }
  else if op = OpLDAI then
    match g1.Fetch with
    | some (v, g2) =>
      match g2.Memory.get? ((g2.I + v) % wordMod) with
      | some w => .next { g2 with A := w }
      | none => .crashed g2
    | none => .crashed g1
  else if op = OpCMPI then
    match g1.Fetch with
    | some (v, g2) => .next { g2 with Z := decide (g2.I = v) }
    | none => .crashed g1
  else if op = OpJNEQ then
    -- NOTE: the source has no `else` branch here: when Z is set, P is
    -- left unchanged and the inline operand word is NOT skipped.
    if g1.Z = false then
      match g1.Fetch with
      | some (v, g2) => .next { g2 with P := v }
      | none => .crashed g1
    else .next g1
  else .errored op g1

/-- One full iteration of `Run`'s loop: fetch, then decode/execute. -/
def Machine.step (g : Machine) : StepRes :=
  match g.Fetch with
  | some (op, g1) => Machine.exec op g1
  | none => .crashed g

/-- The observable status of `Run` after some number of loop iterations:
still looping, returned nil, returned an "unknown opcode" error, or
panicked on an out-of-range access. -/
inductive RunRes where
  | running (g : Machine)
  | halted (g : Machine)
  | errored (w : Word) (g : Machine)
  | crashed (g : Machine)
deriving Repr, DecidableEq

/-- The machine state carried by a `RunRes`. -/
def RunRes.mach : RunRes → Machine
  | .running g => g
  | .halted g => g
  | .errored _ g => g
  | .crashed g => g

/-- Whether `Run` has returned nil (terminated successfully via HALT). -/
def RunRes.isHalted : RunRes → Bool
  | .halted _ => true
  | _ => false

/-- Whether `Run` has returned a non-nil "unknown opcode" error. -/
def RunRes.isErrored : RunRes → Bool
  | .errored _ _ => true
  | _ => false

/-- Whether `Run` has returned at all (either nil or an error value).
A `crashed` outcome is a propagating panic: `Run` never returns. -/
def RunRes.isReturn : RunRes → Bool
  | .halted _ => true
  | .errored _ _ => true
  | _ => false

/-- `Machine.Run`'s loop, indexed by the number of iterations allowed.
`running g` means the loop has not yet exited after that many iterations. -/
def Machine.runFor : Nat → Machine → RunRes
  | 0, g => .running g
  | n + 1, g =>
    match g.step with
    | .next g' => Machine.runFor n g'
    | .halted g' => .halted g'
    | .errored w g' => .errored w g'
    | .crashed g' => .crashed g'

/-- Go's `copy(dst, src)`: overwrite the front of `dst` with `src`,
truncating `src` to `dst`'s length and keeping `dst`'s tail. -/
def copyInto (dst src : List Word) : List Word :=
  src.take dst.length ++ dst.drop src.length

/-- `Machine.Load`: fail (returning the receiver unchanged) when the program
is longer than memory; otherwise copy the program over the front of memory
and reset `P` to 0.  The returned pair is (machine after the call, error). -/
def Machine.Load (g : Machine) (data : List Word) : Machine × Option String :=
  if data.length > g.Memory.length then
    (g, some "program size exceeds memory size")
  else
    ({ g with Memory := copyInto g.Memory data, P := 0 }, none)

/-- The machine state carried by a `StepRes`. -/
def StepRes.mach : StepRes → Machine
  | .next g => g
  | .halted g => g
  | .errored _ g => g
  | .crashed g => g

/-- `Run` eventually returns a value to its caller: either nil (HALT) or a
non-nil "unknown opcode" error.  A panic (`crashed`) is not a return. -/
def RunReturns (g : Machine) : Prop :=
  ∃ n, (Machine.runFor n g).isReturn = true

/-- Execution starting from `g` reaches a state about to fetch either the
HALT opcode or a word that is not a known opcode. -/
def ReachesHaltOrUnknown (g : Machine) : Prop :=
  ∃ n gp w, Machine.runFor n g = .running gp ∧
    gp.Memory.get? gp.P = some w ∧ (w = OpHALT ∨ isKnownOp w = false)

/-- The Fibonacci-style word program from the spec's testable properties. -/
def fibProgram : List Word :=
  [OpINCA, OpSETI, 10, OpMVAY, OpADXY, OpMVAX, OpMVYA, OpDECI, OpJINZ, 3, OpHALT]

/-- A machine about to execute JNEQ with the Z flag set; the operand word is
the INCA opcode, so whether the operand is skipped is observable in `A`. -/
def jneqExample : Machine := { Memory := [OpJNEQ, OpINCA, OpHALT], Z := true }

/-- A machine whose program jumps to address 5, outside its 2-word memory. -/
def oobJump : Machine := { Memory := [OpJUMP, 5] }

/-- A machine with empty memory: the very first fetch is out of range. -/
def emptyMemM : Machine := { Memory := [] }

/-- A machine executing `LDAI 5000`: the indexed load is out of range. -/
def ldaiOobM : Machine := { Memory := [OpLDAI, 5000] }

/-- A machine whose first word is HALT. -/
def haltExample : Machine := { Memory := [OpHALT] }

/-- A two-word machine used to exercise `Load` on both branches. -/
def smallLoadM : Machine := { Memory := [0, 0] }

/-! ## Lexer and assembler -/

-- Token kind constants, from the `TokenInstruction = iota + 1` block.
def TokenInstruction : Nat := 1
def TokenComment : Nat := 2
def TokenNumberLiteral : Nat := 3
def TokenRuneLiteral : Nat := 4

/-- A lexer token.  `Kind` is a plain integer as in the source; `Col` exists
in the struct but is never assigned by this tokenizer, so it stays 0. -/
structure Token where
  Kind : Nat
  Value : Word
  RawToken : String
  Line : Nat
  Col : Nat
deriving Repr, DecidableEq

/-- The mnemonic table (`var instructions = map[string]OpCode`); an
association list with distinct keys stands in for the Go map. -/
def instructions : List (String × Word) :=
  [("ADXY", OpADXY), ("DECA", OpDECA), ("DECI", OpDECI), ("HALT", OpHALT),
   ("INCA", OpINCA), ("JINZ", OpJINZ), ("MVAX", OpMVAX), ("MVAY", OpMVAY),
   ("MVYA", OpMVYA), ("NOOP", OpNOOP), ("OUTA", OpOUTA), ("SETA", OpSETA),
   ("SETI", OpSETI), ("JUMP", OpJUMP), ("INCI", OpINCI), ("LDAI", OpLDAI),
   ("CMPI", OpCMPI), ("JNEQ", OpJNEQ)]

/-- `strconv.Atoi` on a 64-bit platform: optional sign, decimal digits,
error on empty input, a non-digit, or a value outside the `int64` range. -/
def atoi (s : List Char) : Option Int :=
  let core : Bool → List Char → Option Int := fun neg ds =>
    if ds.isEmpty then none
    else if ds.all Char.isDigit then
      let n : Nat := ds.foldl (fun acc c => acc * 10 + (c.toNat - 48)) 0
      let v : Int := if neg then -(n : Int) else (n : Int)
      if v < -9223372036854775808 ∨ v > 9223372036854775807 then none else some v
    else none
  match s with
  | [] => none
  | c :: rest =>
    if c = '-' then core true rest
    else if c = '+' then core false rest
    else core false s

/-- Go's `Word(converted)` on an `int`: two's-complement reduction into an
unsigned 64-bit word. -/
def intToWord (v : Int) : Word := (v % (18446744073709551616 : Int)).toNat

/-- `strings.ToUpper`, restricted to ASCII case mapping.  (Go uppercases all
of Unicode; the difference can only matter for lexemes that could collide
with the all-ASCII mnemonic table after case folding, which no input in
this development does.) -/
def goToUpper (s : List Char) : List Char := s.map Char.toUpper

/-- The lexeme-to-token resolution `newToken`: a `//` prefix is a comment;
an (upper-cased) mnemonic is an instruction; exactly three runes bounded by
single quotes are a rune literal valued at the enclosed code point; otherwise
the text must parse as an integer, else it is an "unknown instruction"
error.  `Line`/`Col` are zero here; `emit` fills in `Line`. -/
def newToken (rawToken : List Char) : Except String Token :=
  let stringToken := String.mk rawToken
  if rawToken.take 2 = ['/', '/'] then
    .ok { Kind := TokenComment, Value := 0, RawToken := stringToken, Line := 0, Col := 0 }
  else
    match instructions.lookup (String.mk (goToUpper rawToken)) with
    | some v =>
      .ok { Kind := TokenInstruction, Value := v, RawToken := stringToken, Line := 0, Col := 0 }
    | none =>
      -- `utf8.RuneCountInString == 3 && HasPrefix "'" && HasSuffix "'"`,
      -- expressed as a three-rune quote-delimited pattern.
      match rawToken with
      | ['\'', c, '\''] =>
        .ok { Kind := TokenRuneLiteral, Value := c.toNat, RawToken := stringToken,
              Line := 0, Col := 0 }
      | _ =>
        match atoi rawToken with
        | some v =>
          .ok { Kind := TokenNumberLiteral, Value := intToWord v, RawToken := stringToken,
                Line := 0, Col := 0 }
        | none => .error ("unknown instruction " ++ stringToken)

/-- The lexer state carried through the state functions.  `emits` is the
`result` slice, instrumented with the `start` index each token's lexeme
began at (the `Nat` component is ghost data used only in theorems). -/
structure tokenizer where
  input : List Char
  start : Nat := 0
  pos : Nat := 0
  line : Nat := 1
  emits : List (Nat × Token) := []
  err : Option String := none
deriving Repr, DecidableEq

/-- The `eof` sentinel rune (0). -/
def eofChar : Char := Char.ofNat 0

/-- `tokenizer.peek`: the rune at `pos`, or `eof` past the end. -/
def tokenizer.peek (t : tokenizer) : Char := t.input.getD t.pos eofChar

/-- The current lexeme `input[start:pos]`. -/
def tokenizer.lexeme (t : tokenizer) : List Char :=
  (t.input.drop t.start).take (t.pos - t.start)

/-- `tokenizer.emit`: resolve the current lexeme and append it (stamped with
the current line) to the results; a resolution error is recorded in `err`
while the zero token is still appended, exactly as in the source. -/
def tokenizer.emit (t : tokenizer) : tokenizer :=
  match newToken t.lexeme with
  | .ok tok => { t with emits := t.emits ++ [(t.start, { tok with Line := t.line })] }
  | .error e =>
    { t with err := some (toString t.line ++ ": syntax error: " ++ e),
             emits := t.emits ++
               [(t.start, { Kind := 0, Value := 0, RawToken := "", Line := t.line, Col := 0 })] }

/-- The lexer's states (`stateFunc`s in the source). -/
inductive TPhase where
  | wantToken
  | inToken
  | inRuneLiteral
  | inComment
  | done
deriving Repr, DecidableEq

/-- One iteration of the active state function's scanning loop.  Each
`t.next()` followed by `t.backup()` leaves the position unchanged, so those
pairs are written as the identity on the state. -/
def tstep : TPhase → tokenizer → TPhase × tokenizer
  | .wantToken, t =>
    let c := t.peek
    if c = eofChar then (.done, t)
    else if c = '\n' then
      (.wantToken, { t with pos := t.pos + 1, line := t.line + 1, start := t.pos + 1 })
    else if c = ' ' ∨ c = ';' then (.wantToken, { t with pos := t.pos + 1, start := t.pos + 1 })
    else (.inToken, t)
  | .inToken, t =>
    let c := t.peek
    if c = eofChar then (.done, t.emit)
    else if c = '/' then
      let t1 : tokenizer := { t with pos := t.pos + 1 }
      if t1.peek = '/' then (.inComment, t1)
      else
        (.done, { t1 with err := some (toString t1.line ++
          ": syntax error: expected '/' got '" ++ String.mk [t1.peek] ++ "'") })
    else if c = '\n' ∨ c = ' ' ∨ c = ';' then (.wantToken, t.emit)
    else if c = '\'' then (.inRuneLiteral, { t with pos := t.pos + 1 })
    else (.inToken, { t with pos := t.pos + 1 })
  | .inRuneLiteral, t =>
    let c := t.peek
    if c = eofChar then (.done, { t with err := some "unexpected EOF in rune literal" })
    else if c = '\'' then (.wantToken, ({ t with pos := t.pos + 1 } : tokenizer).emit)
    else (.inRuneLiteral, { t with pos := t.pos + 1 })
  | .inComment, t =>
    let c := t.peek
    if c = eofChar then (.done, t.emit)
    else if c = '\n' then (.wantToken, t.emit)
    else (.inComment, { t with pos := t.pos + 1 })
  | .done, t => (.done, t)

/-- The `Tokenize` driver loop: run state functions until one returns nil,
aborting as soon as `err` is set.  Fuel-indexed; the fuel chosen by
`TokenizeT` always suffices for real inputs. -/
def tokRun : Nat → TPhase → tokenizer → Except String (List (Nat × Token))
  | 0, _, _ => .error "out of fuel"
  | fuel + 1, ph, t =>
    let s := tstep ph t
    match s.2.err with
    | some e => .error e
    | none => if s.1 = .done then .ok s.2.emits else tokRun fuel s.1 s.2

/-- `Tokenize`, instrumented: returns the emitted tokens together with the
ghost start index of each lexeme. -/
def TokenizeT (data : String) : Except String (List (Nat × Token)) :=
  tokRun (3 * data.length + 3) .wantToken { input := data.data }

/-- `Tokenize` as the source exposes it: just the tokens. -/
def Tokenize (data : String) : Except String (List Token) :=
  (TokenizeT data).map (fun es => es.map Prod.snd)

/-- Assembly errors: the wrapped tokenizer failure, the "unexpected
instruction" arity error, and the unreachable unknown-token-kind error. -/
inductive AsmError where
  | tokenizeError (e : String)
  | unexpectedInstruction (line : Nat) (raw : String)
  | unknownTokenKind (line : Nat) (kind : Nat)
deriving Repr, DecidableEq

/-- The token loop of `Assemble`: one pass with a single `argRequired`
boolean, dropping comments, rejecting an instruction while an argument is
pending, and appending every other token's value to the program. -/
def assembleTokens : Bool → List Token → Except AsmError (List Word)
  | _, [] => .ok []
  | argRequired, tok :: toks =>
    if tok.Kind = TokenComment then assembleTokens argRequired toks
    else if tok.Kind = TokenInstruction then
      if argRequired then .error (.unexpectedInstruction tok.Line tok.RawToken)
      else (assembleTokens (OpCode.RequiresArgument tok.Value) toks).map
        (fun ws => tok.Value :: ws)
    else if tok.Kind = TokenRuneLiteral ∨ tok.Kind = TokenNumberLiteral then
      (assembleTokens false toks).map (fun ws => tok.Value :: ws)
    else .error (.unknownTokenKind tok.Line tok.Kind)

/-- `Assemble`: tokenize, then run the token loop with no argument pending. -/
def Assemble (input : String) : Except AsmError (List Word) :=
  match Tokenize input with
  | .error e => .error (.tokenizeError e)
  | .ok tokens => assembleTokens false tokens

/-! ## Specification-side predicates used by the theorems -/

/-- The non-comment tokens of a stream, in order. -/
def nonComment (ts : List Token) : List Token :=
  ts.filter (fun t => decide (t.Kind ≠ TokenComment))

/-- An argument-requiring instruction followed directly by an instruction. -/
def badPair (a b : Token) : Prop :=
  a.Kind = TokenInstruction ∧ OpCode.RequiresArgument a.Value = true ∧
    b.Kind = TokenInstruction

/-- Some adjacent pair of the list is a `badPair`. -/
def hasBadSplit (fs : List Token) : Prop :=
  ∃ l1 a b l2, fs = l1 ++ a :: b :: l2 ∧ badPair a b

/-- The claim's error condition: an instruction token whose preceding
non-comment token is an argument-requiring instruction. -/
def unexpectedInstructionCondition (ts : List Token) : Prop :=
  hasBadSplit (nonComment ts)

/-- A token kind actually produced by the tokenizer. -/
def validKind (t : Token) : Prop :=
  t.Kind = TokenInstruction ∨ t.Kind = TokenComment ∨
    t.Kind = TokenNumberLiteral ∨ t.Kind = TokenRuneLiteral

/-- The first token of the list exists and is an instruction. -/
def headInstr (fs : List Token) : Prop :=
  ∃ a l, fs = a :: l ∧ a.Kind = TokenInstruction

/-- Whether an assembly result is specifically the "unexpected instruction"
error. -/
def isUnexpectedInstructionError : Except AsmError (List Word) → Bool
  | .error (.unexpectedInstruction _ _) => true
  | _ => false

/-- A SETA instruction token, as the tokenizer would emit it. -/
def tokSETA : Token :=
  { Kind := TokenInstruction, Value := OpSETA, RawToken := "SETA", Line := 1, Col := 0 }

/-- A NOOP instruction token, as the tokenizer would emit it. -/
def tokNOOP : Token :=
  { Kind := TokenInstruction, Value := OpNOOP, RawToken := "NOOP", Line := 1, Col := 0 }

/-- The number of newline characters in a character list. -/
def countNL (cs : List Char) : Nat := cs.countP (fun c => decide (c = '\n'))

/-- The tokenizer example input from the spec's testable properties. -/
def exampleSource : String := "NOOP\nSETA 5 \n HALT\n"

/-- An input whose first rune literal spans a newline: the newline is
consumed inside `inRuneLiteral`, where the line counter is not incremented. -/
def runeNewlineSource : String := "'\n'\n5"

/-! ## Theorems -/

/-- `step` in terms of the raw memory read: fetch panics out of range,
otherwise the fetched word is decoded against the post-increment state. -/
lemma step_eq (g : Machine) : g.step =
    match g.Memory.get? g.P with
    | some op => Machine.exec op { g with P := (g.P + 1) % wordMod }
    | none => .crashed g := by
  unfold Machine.step Machine.Fetch
  cases g.Memory.get? g.P <;> rfl

/-- A successful fetch does not change memory. -/
lemma Fetch_memory {g : Machine} {op : Nat} {g1 : Machine}
    (h : g.Fetch = some (op, g1)) : g1.Memory = g.Memory := by
  unfold Machine.Fetch at h
  cases hg : g.Memory.get? g.P <;> rw [hg] at h
  · simp at h
  · simp only [Option.some.injEq, Prod.mk.injEq] at h
    rw [← h.2]

/-- The HALT case of the switch. -/
lemma exec_HALT (g1 : Machine) : Machine.exec OpHALT g1 = .halted g1 := rfl

/-- A word outside `1..18` falls through to the default case: an
"unknown opcode" error return. -/
lemma exec_unknown {op : Nat} (g1 : Machine) (h : ¬ (1 ≤ op ∧ op ≤ 18)) :
    Machine.exec op g1 = .errored op g1 := by
  unfold Machine.exec
  rw [if_neg (show ¬ op = OpHALT by simp only [OpHALT]; omega),
      if_neg (show ¬ op = OpNOOP by simp only [OpNOOP]; omega),
      if_neg (show ¬ op = OpINCA by simp only [OpINCA]; omega),
      if_neg (show ¬ op = OpDECA by simp only [OpDECA]; omega),
      if_neg (show ¬ op = OpSETA by simp only [OpSETA]; omega),
      if_neg (show ¬ op = OpSETI by simp only [OpSETI]; omega),
      if_neg (show ¬ op = OpDECI by simp only [OpDECI]; omega),
      if_neg (show ¬ op = OpJINZ by simp only [OpJINZ]; omega),
      if_neg (show ¬ op = OpMVAY by simp only [OpMVAY]; omega),
      if_neg (show ¬ op = OpADXY by simp only [OpADXY]; omega),
      if_neg (show ¬ op = OpMVAX by simp only [OpMVAX]; omega),
      if_neg (show ¬ op = OpMVYA by simp only [OpMVYA]; omega),
      if_neg (show ¬ op = OpOUTA by simp only [OpOUTA]; omega),
      if_neg (show ¬ op = OpJUMP by simp only [OpJUMP]; omega),
      if_neg (show ¬ op = OpINCI by simp only [OpINCI]; omega),
      if_neg (show ¬ op = OpLDAI by simp only [OpLDAI]; omega),
      if_neg (show ¬ op = OpCMPI by simp only [OpCMPI]; omega),
      if_neg (show ¬ op = OpJNEQ by simp only [OpJNEQ]; omega)]

/-- Every known opcode other than HALT either continues the loop or panics
on an out-of-range access, and neither changes memory. -/
lemma exec_known (op : Nat) (g1 : Machine) (hlo : 2 ≤ op) (hhi : op ≤ 18) :
    (∃ g2, Machine.exec op g1 = .next g2 ∧ g2.Memory = g1.Memory) ∨
    (∃ g2, Machine.exec op g1 = .crashed g2 ∧ g2.Memory = g1.Memory) := by
  interval_cases op <;>
    simp only [Machine.exec, OpHALT, OpNOOP, OpINCA, OpDECA, OpSETA, OpSETI, OpDECI,
      OpJINZ, OpMVAY, OpADXY, OpMVAX, OpMVYA, OpOUTA, OpJUMP, OpINCI, OpLDAI, OpCMPI,
      OpJNEQ, Nat.reduceEqDiff, reduceIte]
  -- NOOP
  · exact Or.inl ⟨_, rfl, rfl⟩
  -- INCA
  · exact Or.inl ⟨_, rfl, rfl⟩
  -- DECA
  · exact Or.inl ⟨_, rfl, rfl⟩
  -- SETA
  · rcases hF : g1.Fetch with _ | ⟨v, g2⟩
    · exact Or.inr ⟨g1, rfl, rfl⟩
    · have hm := Fetch_memory hF
      exact Or.inl ⟨_, rfl, hm⟩
  -- SETI
  · rcases hF : g1.Fetch with _ | ⟨v, g2⟩
    · exact Or.inr ⟨g1, rfl, rfl⟩
    · have hm := Fetch_memory hF
      exact Or.inl ⟨_, rfl, hm⟩
  -- DECI
  · exact Or.inl ⟨_, rfl, rfl⟩
  -- JINZ
  · split_ifs with hI
    · rcases hF : g1.Fetch with _ | ⟨v, g2⟩
      · exact Or.inr ⟨g1, rfl, rfl⟩
      · have hm := Fetch_memory hF
        exact Or.inl ⟨_, rfl, hm⟩
    · exact Or.inl ⟨_, rfl, rfl⟩
  -- MVAY
  · exact Or.inl ⟨_, rfl, rfl⟩
  -- ADXY
  · exact Or.inl ⟨_, rfl, rfl⟩
  -- MVAX
  · exact Or.inl ⟨_, rfl, rfl⟩
  -- MVYA
  · exact Or.inl ⟨_, rfl, rfl⟩
  -- OUTA
  · exact Or.inl ⟨_, rfl, rfl⟩
  -- JUMP
  · rcases hF : g1.Fetch with _ | ⟨v, g2⟩
    · exact Or.inr ⟨g1, rfl, rfl⟩
    · have hm := Fetch_memory hF
      exact Or.inl ⟨_, rfl, hm⟩
  -- INCI
  · exact Or.inl ⟨_, rfl, rfl⟩
  -- LDAI
  · rcases hF : g1.Fetch with _ | ⟨v, g2⟩
    · exact Or.inr ⟨g1, rfl, rfl⟩
    · have hm := Fetch_memory hF
      show (∃ g3, (match g2.Memory.get? ((g2.I + v) % wordMod) with
              | some w => StepRes.next { g2 with A := w }
              | none => StepRes.crashed g2) = StepRes.next g3 ∧ g3.Memory = g1.Memory) ∨
          (∃ g3, (match g2.Memory.get? ((g2.I + v) % wordMod) with
              | some w => StepRes.next { g2 with A := w }
              | none => StepRes.crashed g2) = StepRes.crashed g3 ∧ g3.Memory = g1.Memory)
      rcases hG : g2.Memory.get? ((g2.I + v) % wordMod) with _ | w
      · exact Or.inr ⟨g2, rfl, hm⟩
      · exact Or.inl ⟨_, rfl, hm⟩
  -- CMPI
  · rcases hF : g1.Fetch with _ | ⟨v, g2⟩
    · exact Or.inr ⟨g1, rfl, rfl⟩
    · have hm := Fetch_memory hF
      exact Or.inl ⟨_, rfl, hm⟩
  -- JNEQ
  · split_ifs with hZ
    · rcases hF : g1.Fetch with _ | ⟨v, g2⟩
      · exact Or.inr ⟨g1, rfl, rfl⟩
      · have hm := Fetch_memory hF
        exact Or.inl ⟨_, rfl, hm⟩
    · exact Or.inl ⟨g1, rfl, rfl⟩

/-- `isKnownOp` is false exactly outside the enumeration range. -/
lemma isKnownOp_false_iff (w : Nat) : isKnownOp w = false ↔ ¬ (1 ≤ w ∧ w ≤ 18) := by
  constructor
  · intro hf hc
    simp [isKnownOp, hc.1, hc.2] at hf
  · intro hn
    cases hb : isKnownOp w with
    | false => rfl
    | true => exact absurd (by simpa [isKnownOp] using hb) hn

/-- No opcode writes to memory. -/
lemma exec_memory (op : Nat) (g1 : Machine) :
    (Machine.exec op g1).mach.Memory = g1.Memory := by
  by_cases h1 : op = OpHALT
  · rw [h1, exec_HALT]
    rfl
  by_cases hk : 1 ≤ op ∧ op ≤ 18
  · have h2 : 2 ≤ op := by simp only [OpHALT] at h1; omega
    rcases exec_known op g1 h2 hk.2 with ⟨g2, he, hm⟩ | ⟨g2, he, hm⟩ <;> rw [he] <;> exact hm
  · rw [exec_unknown g1 hk]
    rfl

/-- One loop iteration does not change memory. -/
lemma step_memory (g : Machine) : (g.step).mach.Memory = g.Memory := by
  rw [step_eq]
  cases hg : g.Memory.get? g.P with
  | none => rfl
  | some op =>
    show (Machine.exec op { g with P := (g.P + 1) % wordMod }).mach.Memory = g.Memory
    rw [exec_memory]

/-- Inversion: a loop iteration returns nil only by fetching HALT. -/
lemma exec_halted_inv {op : Nat} {g1 gf : Machine}
    (h : Machine.exec op g1 = .halted gf) : op = OpHALT ∧ gf = g1 := by
  by_cases h1 : op = OpHALT
  · subst h1
    rw [exec_HALT] at h
    refine ⟨rfl, ?_⟩
    injection h with h2
    exact h2.symm
  exfalso
  by_cases hk : 1 ≤ op ∧ op ≤ 18
  · have h2 : 2 ≤ op := by simp only [OpHALT] at h1; omega
    rcases exec_known op g1 h2 hk.2 with ⟨g2, he, _⟩ | ⟨g2, he, _⟩ <;> rw [he] at h <;> simp at h
  · rw [exec_unknown g1 hk] at h
    simp at h

/-- Inversion: a loop iteration returns an error only by fetching a word
outside the known opcode range. -/
lemma exec_errored_inv {op w : Nat} {g1 gf : Machine}
    (h : Machine.exec op g1 = .errored w gf) :
    w = op ∧ gf = g1 ∧ isKnownOp op = false := by
  by_cases h1 : op = OpHALT
  · rw [h1, exec_HALT] at h
    simp at h
  by_cases hk : 1 ≤ op ∧ op ≤ 18
  · exfalso
    have h2 : 2 ≤ op := by simp only [OpHALT] at h1; omega
    rcases exec_known op g1 h2 hk.2 with ⟨g2, he, _⟩ | ⟨g2, he, _⟩ <;> rw [he] at h <;> simp at h
  · rw [exec_unknown g1 hk, StepRes.errored.injEq] at h
    exact ⟨h.1.symm, h.2.symm, (isKnownOp_false_iff op).mpr hk⟩

/-- Fetching HALT ends the run loop with a nil return. -/
lemma step_of_get_halt {g : Machine} (h : g.Memory.get? g.P = some OpHALT) :
    g.step = .halted { g with P := (g.P + 1) % wordMod } := by
  rw [step_eq, h]
  rfl

/-- Fetching a word outside the opcode range ends the run loop with an
"unknown opcode" error return. -/
lemma step_of_get_unknown {g : Machine} {w : Nat} (h : g.Memory.get? g.P = some w)
    (hk : isKnownOp w = false) :
    g.step = .errored w { g with P := (g.P + 1) % wordMod } := by
  rw [step_eq, h]
  exact exec_unknown _ ((isKnownOp_false_iff w).mp hk)

/-- Inversion of `step_of_get_halt`. -/
lemma step_halted_inv {g gf : Machine} (h : g.step = .halted gf) :
    g.Memory.get? g.P = some OpHALT ∧ gf = { g with P := (g.P + 1) % wordMod } := by
  rw [step_eq] at h
  cases hg : g.Memory.get? g.P <;> rw [hg] at h
  · simp at h
  · obtain ⟨h1, h2⟩ := exec_halted_inv h
    exact ⟨by rw [h1], h2⟩

/-- Inversion of `step_of_get_unknown`. -/
lemma step_errored_inv {g gf : Machine} {w : Nat} (h : g.step = .errored w gf) :
    g.Memory.get? g.P = some w ∧ isKnownOp w = false ∧
      gf = { g with P := (g.P + 1) % wordMod } := by
  rw [step_eq] at h
  cases hg : g.Memory.get? g.P <;> rw [hg] at h
  · simp at h
  · obtain ⟨h1, h2, h3⟩ := exec_errored_inv h
    refine ⟨by rw [h1], ?_, h2⟩
    rw [h1]
    exact h3

/-- Unfolding one iteration of the run loop. -/
lemma runFor_succ (n : Nat) (g : Machine) :
    Machine.runFor (n + 1) g =
      match g.step with
      | .next g' => Machine.runFor n g'
      | .halted g' => .halted g'
      | .errored w g' => .errored w g'
      | .crashed g' => .crashed g' := rfl

/-- One iteration of the run loop when the step continues. -/
lemma runFor_succ_next {g g' : Machine} (hs : g.step = .next g') (n : Nat) :
    Machine.runFor (n + 1) g = Machine.runFor n g' := by
  rw [runFor_succ, hs]

/-- One iteration of the run loop when the step halts. -/
lemma runFor_succ_halted {g g' : Machine} (hs : g.step = .halted g') (n : Nat) :
    Machine.runFor (n + 1) g = .halted g' := by
  rw [runFor_succ, hs]

/-- One iteration of the run loop when the step errors. -/
lemma runFor_succ_errored {g g' : Machine} {w : Nat} (hs : g.step = .errored w g')
    (n : Nat) : Machine.runFor (n + 1) g = .errored w g' := by
  rw [runFor_succ, hs]

/-- One iteration of the run loop when the step panics. -/
lemma runFor_succ_crashed {g g' : Machine} (hs : g.step = .crashed g') (n : Nat) :
    Machine.runFor (n + 1) g = .crashed g' := by
  rw [runFor_succ, hs]

/-- Running `n + m` iterations from a state that is still running after `n`
iterations continues from the intermediate state. -/
lemma runFor_add {n : Nat} {g gp : Machine} (h : Machine.runFor n g = .running gp) :
    ∀ m, Machine.runFor (n + m) g = Machine.runFor m gp := by
  induction n generalizing g with
  | zero =>
    simp only [Machine.runFor, RunRes.running.injEq] at h
    intro m
    rw [Nat.zero_add, h]
  | succ n ih =>
    intro m
    rw [show n + 1 + m = (n + m) + 1 from by omega]
    cases hs : g.step with
    | next g' =>
      rw [runFor_succ_next hs] at h
      rw [runFor_succ_next hs]
      exact ih h m
    | halted g' => rw [runFor_succ_halted hs] at h; simp at h
    | errored w g' => rw [runFor_succ_errored hs] at h; simp at h
    | crashed g' => rw [runFor_succ_crashed hs] at h; simp at h

/-- C5: loading the word program
`[INCA, SETI, 10, MVAY, ADXY, MVAX, MVYA, DECI, JINZ, 3, HALT]` into a fresh
machine succeeds, and running it terminates successfully (Run returns nil via
HALT) with register A equal to 89. -/
theorem fib_program_halts_with_A_89 :
    (Machine.New.Load fibProgram).2 = none ∧
    (Machine.runFor 100 (Machine.New.Load fibProgram).1).isHalted = true ∧
    (Machine.runFor 100 (Machine.New.Load fibProgram).1).mach.A = 89 := by
  refine ⟨by decide, by decide, by decide⟩

/-- C1 (code bug): executing JNEQ with the Z flag set does NOT increment `P`;
the source's `OpJNEQ` case has no `else` branch, so `P` is left pointing at
the inline operand word, which is then decoded as the next instruction.  On
`jneqExample` (memory `[JNEQ, INCA, HALT]`, `Z = true`) the step leaves
`P = 1` rather than the claimed `P = 2`, and the full run executes the
operand word as INCA, halting with `A = 1` instead of `A = 0`. -/
theorem jneq_with_Z_set_does_not_skip_operand :
    Machine.step jneqExample = .next { jneqExample with P := 1 } ∧
    Machine.step jneqExample ≠ .next { jneqExample with P := 2 } ∧
    Machine.runFor 3 jneqExample = .halted { jneqExample with P := 3, A := 1 } := by
  refine ⟨by decide, by decide, by decide⟩

/-- C2 counterexample: on `oobJump` (memory `[JUMP, 5]`, so the program
counter is sent outside the 2-word memory) `Run` panics — the embedding's
`crashed` outcome — and never returns an error result to the caller, contrary
to the claim that an out-of-range access is treated as an error return. -/
theorem out_of_range_fetch_crashes_not_errors :
    Machine.runFor 2 oobJump = .crashed { oobJump with P := 5 } ∧
    (Machine.runFor 2 oobJump).isErrored = false ∧
    (Machine.runFor 200 oobJump).isErrored = false ∧
    (Machine.runFor 200 oobJump).isHalted = false := by
  refine ⟨by decide, by decide, by decide, by decide⟩

/-- C2 amended: when `P` indexes outside `Memory` at a fetch, or the LDAI
index `I + operand` (mod `2^64`) is outside `Memory`, `Run` panics — the
`crashed` outcome, Go's out-of-range slice-index panic — rather than
returning an error result; only unknown opcodes produce error returns. -/
theorem out_of_range_access_panics (g : Machine) :
    (g.Memory.get? g.P = none →
      g.step = .crashed g ∧ ∀ n, Machine.runFor (n + 1) g = .crashed g) ∧
    (∀ g1 v g2, g.Fetch = some (OpLDAI, g1) → g1.Fetch = some (v, g2) →
      g2.Memory.get? ((g2.I + v) % wordMod) = none → g.step = .crashed g2) := by
  constructor
  · intro h
    have hs : g.step = .crashed g := by rw [step_eq, h]
    exact ⟨hs, fun n => runFor_succ_crashed hs n⟩
  · intro g1 v g2 h1 h2 h3
    have hstep : g.step = Machine.exec OpLDAI g1 := by
      unfold Machine.step
      rw [h1]
    rw [hstep]
    simp only [Machine.exec, OpLDAI, OpHALT, OpNOOP, OpINCA, OpDECA, OpSETA, OpSETI,
      OpDECI, OpJINZ, OpMVAY, OpADXY, OpMVAX, OpMVYA, OpOUTA, OpJUMP, OpINCI, OpCMPI,
      OpJNEQ, Nat.reduceEqDiff, reduceIte]
    rw [h2]
    show (match g2.Memory.get? ((g2.I + v) % wordMod) with
        | some w => StepRes.next { g2 with A := w }
        | none => StepRes.crashed g2) = StepRes.crashed g2
    rw [h3]

/-- C2 amended, witness: a machine with empty memory panics on its first
fetch, and `LDAI 5000` on a 2-word machine panics on the indexed load. -/
theorem out_of_range_access_panics_witness :
    Machine.step emptyMemM = .crashed emptyMemM ∧
    Machine.step ldaiOobM = .crashed { ldaiOobM with P := 2 } := by
  constructor
  · exact ((out_of_range_access_panics emptyMemM).1 (by decide)).1
  · exact (out_of_range_access_panics ldaiOobM).2 { ldaiOobM with P := 1 } 5000
      { ldaiOobM with P := 2 } (by decide) (by decide) (by decide)

/-- C10: the word 0 is not a valid opcode (the enumeration starts at 1), so
any machine about to fetch a 0 word — e.g. a fresh machine with zeroed
memory, or a program running into untouched zeroed memory — gets the
"unknown opcode 0" error return from `Run`, not a successful halt. -/
theorem word_zero_is_not_an_opcode (g : Machine) (h : g.Memory.get? g.P = some 0) :
    isKnownOp 0 = false ∧
    g.step = .errored 0 { g with P := (g.P + 1) % wordMod } ∧
    ∀ n, Machine.runFor (n + 1) g = .errored 0 { g with P := (g.P + 1) % wordMod } := by
  have hs : g.step = .errored 0 { g with P := (g.P + 1) % wordMod } :=
    step_of_get_unknown h (by decide)
  exact ⟨by decide, hs, fun n => runFor_succ_errored hs n⟩

/-- C10 witness: a fresh machine (1024 zeroed words, P = 0) errors with
unknown opcode 0 after one loop iteration. -/
theorem word_zero_is_not_an_opcode_witness :
    Machine.runFor 1 Machine.New =
      .errored 0 { Machine.New with P := (Machine.New.P + 1) % wordMod } :=
  (word_zero_is_not_an_opcode Machine.New (by decide)).2.2 0

/-- C3: `Load` fails exactly when the program is longer than memory; on
failure the machine (memory and `P` included) is unchanged; on success the
program is copied over the front of memory, the memory tail and the
registers `A`, `I`, `X`, `Y` and flag `Z` are untouched, and `P` is reset
to 0. -/
theorem load_characterization (g : Machine) (data : List Word) :
    ((g.Load data).2.isSome ↔ data.length > g.Memory.length) ∧
    ((g.Load data).2.isSome → (g.Load data).1 = g) ∧
    ((g.Load data).2 = none →
      (g.Load data).1 = { g with Memory := data ++ g.Memory.drop data.length, P := 0 }) := by
  unfold Machine.Load
  by_cases h : data.length > g.Memory.length
  · simp [h]
  · simp only [h, if_neg, ite_false, if_false]
    refine ⟨by simp, by simp, fun _ => ?_⟩
    have ht : copyInto g.Memory data = data ++ g.Memory.drop data.length := by
      unfold copyInto
      rw [List.take_of_length_le (Nat.le_of_not_lt h)]
    rw [ht]

/-- C3 witness: on a 2-word machine, loading a 3-word program fails and
leaves the machine unchanged; loading a 1-word program succeeds with the
described memory layout. -/
theorem load_characterization_witness :
    (smallLoadM.Load [1, 2, 3]).1 = smallLoadM ∧
    (smallLoadM.Load [7]).1 =
      { smallLoadM with Memory := [7] ++ smallLoadM.Memory.drop 1, P := 0 } :=
  ⟨(load_characterization smallLoadM [1, 2, 3]).2.1 (by decide),
   (load_characterization smallLoadM [7]).2.2 (by decide)⟩

/-- C9: `Run` never writes to memory: however many loop iterations run and
however they end (still running, HALT, unknown-opcode error, or panic), the
memory is exactly what it was at the start; only `Load` modifies memory. -/
theorem run_never_writes_memory (n : Nat) (g : Machine) :
    (Machine.runFor n g).mach.Memory = g.Memory := by
  induction n generalizing g with
  | zero => rfl
  | succ n ih =>
    cases hs : g.step with
    | next g' =>
      rw [runFor_succ_next hs, ih g']
      have := step_memory g
      rw [hs] at this
      exact this
    | halted g' =>
      rw [runFor_succ_halted hs]
      have := step_memory g
      rw [hs] at this
      exact this
    | errored w g' =>
      rw [runFor_succ_errored hs]
      have := step_memory g
      rw [hs] at this
      exact this
    | crashed g' =>
      rw [runFor_succ_crashed hs]
      have := step_memory g
      rw [hs] at this
      exact this

/-- If the run loop has returned a value, some reachable state was about to
fetch HALT or an unknown word. -/
lemma return_reaches : ∀ (n : Nat) (g : Machine),
    (Machine.runFor n g).isReturn = true → ReachesHaltOrUnknown g := by
  intro n
  induction n with
  | zero => intro g h; simp [Machine.runFor, RunRes.isReturn] at h
  | succ n ih =>
    intro g h
    cases hs : g.step with
    | next g' =>
      rw [runFor_succ_next hs] at h
      obtain ⟨m, gp, w, h1, h2, h3⟩ := ih g' h
      exact ⟨m + 1, gp, w, by rw [runFor_succ_next hs]; exact h1, h2, h3⟩
    | halted g' =>
      obtain ⟨h1, _⟩ := step_halted_inv hs
      exact ⟨0, g, OpHALT, rfl, h1, Or.inl rfl⟩
    | errored w g' =>
      obtain ⟨h1, h2, _⟩ := step_errored_inv hs
      exact ⟨0, g, w, rfl, h1, Or.inr h2⟩
    | crashed g' =>
      rw [runFor_succ_crashed hs] at h
      simp [RunRes.isReturn] at h

/-- Conversely, reaching a state about to fetch HALT or an unknown word
makes the run loop return one iteration later. -/
lemma reaches_returns {g : Machine} (h : ReachesHaltOrUnknown g) : RunReturns g := by
  obtain ⟨n, gp, w, h1, h2, h3⟩ := h
  refine ⟨n + 1, ?_⟩
  rw [runFor_add h1 1]
  cases h3 with
  | inl hw =>
    rw [hw] at h2
    rw [runFor_succ_halted (step_of_get_halt h2) 0]
    rfl
  | inr hw =>
    rw [runFor_succ_errored (step_of_get_unknown h2 hw) 0]
    rfl

/-- A halting run came from a state whose next word is HALT, and the final
machine is that state with `P` advanced past the HALT word. -/
lemma halted_last_state : ∀ (n : Nat) (g gf : Machine),
    Machine.runFor n g = .halted gf →
    ∃ m gp, Machine.runFor m g = .running gp ∧
      gp.Memory.get? gp.P = some OpHALT ∧
      gf = { gp with P := (gp.P + 1) % wordMod } := by
  intro n
  induction n with
  | zero => intro g gf h; simp [Machine.runFor] at h
  | succ n ih =>
    intro g gf h
    cases hs : g.step with
    | next g' =>
      rw [runFor_succ_next hs] at h
      obtain ⟨m, gp, h1, h2, h3⟩ := ih g' gf h
      exact ⟨m + 1, gp, by rw [runFor_succ_next hs]; exact h1, h2, h3⟩
    | halted g' =>
      rw [runFor_succ_halted hs] at h
      obtain ⟨h1, h2⟩ := step_halted_inv hs
      refine ⟨0, g, rfl, h1, ?_⟩
      injection h with h4
      rw [← h4]
      exact h2
    | errored w g' =>
      rw [runFor_succ_errored hs] at h
      simp at h
    | crashed g' =>
      rw [runFor_succ_crashed hs] at h
      simp at h

/-- C4: `Run` returns a value (nil via HALT, or an "unknown opcode" error)
if and only if execution reaches a state about to fetch HALT or a word that
is not a known opcode; an out-of-range fetch is a panic, after which `Run`
never returns.  When the return is via HALT, the final `P` is the index
immediately following HALT's word (advanced modulo `2^64`; the mod is the
identity whenever `P + 1` fits in a word, in particular for every in-range
program counter). -/
theorem run_terminates_iff_halt_or_unknown (g : Machine) :
    (RunReturns g ↔ ReachesHaltOrUnknown g) ∧
    (∀ n gf, Machine.runFor n g = .halted gf →
      ∃ m gp, Machine.runFor m g = .running gp ∧
        gp.Memory.get? gp.P = some OpHALT ∧
        gf.P = (gp.P + 1) % wordMod ∧ (gp.P + 1 < wordMod → gf.P = gp.P + 1)) := by
  refine ⟨⟨fun ⟨n, h⟩ => return_reaches n g h, reaches_returns⟩, fun n gf h => ?_⟩
  obtain ⟨m, gp, h1, h2, h3⟩ := halted_last_state n g gf h
  refine ⟨m, gp, h1, h2, by rw [h3], fun hlt => ?_⟩
  rw [h3]
  exact Nat.mod_eq_of_lt hlt

/-- C4 witness: on the one-word program `[HALT]` the run returns, the
reaching direction of the equivalence applies, and the final `P` is 1. -/
theorem run_terminates_iff_halt_or_unknown_witness :
    ReachesHaltOrUnknown haltExample ∧
    (∃ m gp, Machine.runFor m haltExample = .running gp ∧
      gp.Memory.get? gp.P = some OpHALT ∧
      ({ haltExample with P := 1 } : Machine).P = (gp.P + 1) % wordMod ∧
      (gp.P + 1 < wordMod → ({ haltExample with P := 1 } : Machine).P = gp.P + 1)) := by
  have h := run_terminates_iff_halt_or_unknown haltExample
  exact ⟨h.1.mp ⟨1, by decide⟩, h.2 1 { haltExample with P := 1 } (by decide)⟩

/-- C8: any lexeme of exactly three runes bounded by single quotes that is
not a mnemonic resolves to a RuneLiteral token valued at the enclosed code
point; concretely, `Tokenize "'H'"` gives value 72, and the two-byte
Cyrillic `Tokenize "'л'"` gives code point 1083. -/
theorem rune_literal_resolution :
    (∀ c : Char, instructions.lookup (String.mk (goToUpper ['\'', c, '\''])) = none →
      newToken ['\'', c, '\''] =
        .ok { Kind := TokenRuneLiteral, Value := c.toNat,
              RawToken := String.mk ['\'', c, '\''], Line := 0, Col := 0 }) ∧
    Tokenize "'H'" =
      .ok [{ Kind := TokenRuneLiteral, Value := 72, RawToken := "'H'", Line := 1, Col := 0 }] ∧
    Tokenize "'л'" =
      .ok [{ Kind := TokenRuneLiteral, Value := 1083, RawToken := "'л'", Line := 1, Col := 0 }] := by
  refine ⟨?_, by rfl, by rfl⟩
  intro c hlook
  unfold newToken
  rw [if_neg (show ¬ (['\'', c, '\''].take 2 = ['/', '/']) by simp), hlook]
  rfl

/-- C8 witness: the general rune-literal resolution applied at `'H'`. -/
theorem rune_literal_resolution_witness :
    newToken ['\'', 'H', '\''] =
      .ok { Kind := TokenRuneLiteral, Value := 72, RawToken := "'H'", Line := 0, Col := 0 } := by
  have h := rune_literal_resolution.1 'H' (by rfl)
  exact h.trans (by rfl)

/-- Comments are dropped by `nonComment`. -/
lemma nonComment_cons_comment {t : Token} (h : t.Kind = TokenComment) (ts : List Token) :
    nonComment (t :: ts) = nonComment ts := by
  simp [nonComment, h]

/-- Non-comment tokens are kept by `nonComment`. -/
lemma nonComment_cons_keep {t : Token} (h : ¬ t.Kind = TokenComment) (ts : List Token) :
    nonComment (t :: ts) = t :: nonComment ts := by
  simp [nonComment, h]

/-- The empty list has no bad adjacent pair. -/
lemma hasBadSplit_nil : ¬ hasBadSplit ([] : List Token) := by
  rintro ⟨l1, a, b, l2, h, -⟩
  cases l1 <;> simp at h

/-- Unfolding `hasBadSplit` over a cons cell. -/
lemma hasBadSplit_cons (t : Token) (fs : List Token) :
    hasBadSplit (t :: fs) ↔ (∃ b l, fs = b :: l ∧ badPair t b) ∨ hasBadSplit fs := by
  constructor
  · rintro ⟨l1, a, b, l2, heq, hbp⟩
    cases l1 with
    | nil =>
      simp only [List.nil_append, List.cons.injEq] at heq
      exact Or.inl ⟨b, l2, heq.2, by rw [heq.1]; exact hbp⟩
    | cons x l1' =>
      simp only [List.cons_append, List.cons.injEq] at heq
      exact Or.inr ⟨l1', a, b, l2, heq.2, hbp⟩
  · rintro (⟨b, l, hfs, hbp⟩ | ⟨l1, a, b, l2, heq, hbp⟩)
    · exact ⟨[], t, b, l, by rw [hfs]; rfl, hbp⟩
    · exact ⟨t :: l1, a, b, l2, by rw [heq]; rfl, hbp⟩

/-- The empty list has no head instruction. -/
lemma headInstr_nil : ¬ headInstr ([] : List Token) := by
  rintro ⟨a, l, h, -⟩
  simp at h

/-- `headInstr` over a cons cell. -/
lemma headInstr_cons (t : Token) (fs : List Token) :
    headInstr (t :: fs) ↔ t.Kind = TokenInstruction := by
  constructor
  · rintro ⟨a, l, h, hk⟩
    injection h with h1 h2
    rw [h1]
    exact hk
  · intro hk
    exact ⟨t, fs, rfl, hk⟩

/-- Consing a word onto an assembly result preserves which error it is. -/
lemma isUnexpected_map (v : Word) (r : Except AsmError (List Word)) :
    isUnexpectedInstructionError (r.map (fun ws => v :: ws)) =
      isUnexpectedInstructionError r := by
  cases r with
  | error e => cases e <;> rfl
  | ok ws => rfl

/-- Inverting `Except.map` on a successful assembly result. -/
lemma map_ok_inv {v : Word} {r : Except AsmError (List Word)} {ws : List Word}
    (h : r.map (fun ws0 => v :: ws0) = .ok ws) : ∃ ws0, r = .ok ws0 ∧ ws = v :: ws0 := by
  cases r with
  | error e => simp [Except.map] at h
  | ok ws0 =>
    refine ⟨ws0, rfl, ?_⟩
    simp [Except.map] at h
    exact h.symm

/-- The assembler loop characterized for any starting `argRequired` flag:
it produces the "unexpected instruction" error exactly when the non-comment
token stream has an argument-requiring instruction directly followed by an
instruction (or starts with an instruction while an argument is already
pending), and on success the program is the values of the non-comment
tokens in order. -/
lemma assembleTokens_characterization : ∀ (ts : List Token) (b : Bool),
    (∀ t ∈ ts, validKind t) →
    ((isUnexpectedInstructionError (assembleTokens b ts) = true ↔
      (unexpectedInstructionCondition ts ∨ (b = true ∧ headInstr (nonComment ts)))) ∧
     (∀ ws, assembleTokens b ts = .ok ws → ws = (nonComment ts).map Token.Value)) := by
  intro ts
  induction ts with
  | nil =>
    intro b hv
    constructor
    · constructor
      · intro h
        rw [show assembleTokens b [] = .ok [] from rfl] at h
        simp [isUnexpectedInstructionError] at h
      · rintro (hbad | ⟨-, hhead⟩)
        · exact absurd hbad hasBadSplit_nil
        · exact absurd hhead headInstr_nil
    · intro ws h
      injection h with h1
      rw [← h1]
      rfl
  | cons t ts ih =>
    intro b hv
    have hvts : ∀ u ∈ ts, validKind u := fun u hu => hv u (List.mem_cons_of_mem t hu)
    rcases hv t (List.mem_cons_self t ts) with hInstr | hCom | hNum | hRune
    · -- instruction token
      have hnc : nonComment (t :: ts) = t :: nonComment ts :=
        nonComment_cons_keep (by rw [hInstr]; decide) ts
      cases b with
      | true =>
        have hred : assembleTokens true (t :: ts) =
            .error (.unexpectedInstruction t.Line t.RawToken) := by
          simp [assembleTokens, hInstr, TokenInstruction, TokenComment, TokenNumberLiteral, TokenRuneLiteral]
        constructor
        · rw [hred]
          constructor
          · intro _
            exact Or.inr ⟨rfl, by rw [hnc]; exact (headInstr_cons t _).mpr hInstr⟩
          · intro _
            rfl
        · intro ws h
          rw [hred] at h
          simp at h
      | false =>
        have hred : assembleTokens false (t :: ts) =
            (assembleTokens (OpCode.RequiresArgument t.Value) ts).map
              (fun ws => t.Value :: ws) := by
          simp [assembleTokens, hInstr, TokenInstruction, TokenComment, TokenNumberLiteral, TokenRuneLiteral]
        obtain ⟨ih1, ih2⟩ := ih (OpCode.RequiresArgument t.Value) hvts
        constructor
        · rw [hred, isUnexpected_map, ih1,
            unexpectedInstructionCondition, unexpectedInstructionCondition, hnc,
            hasBadSplit_cons]
          constructor
          · rintro (hbad | ⟨hreq, hhead⟩)
            · exact Or.inl (Or.inr hbad)
            · obtain ⟨a, l, hfs, hk⟩ := hhead
              exact Or.inl (Or.inl ⟨a, l, hfs, hInstr, hreq, hk⟩)
          · rintro ((⟨b2, l, hfs, hbp⟩ | hbad) | ⟨hfalse, -⟩)
            · exact Or.inr ⟨hbp.2.1, b2, l, hfs, hbp.2.2⟩
            · exact Or.inl hbad
            · cases hfalse
        · intro ws h
          rw [hred] at h
          obtain ⟨ws0, h0, hws⟩ := map_ok_inv h
          rw [hws, ih2 ws0 h0, hnc]
          rfl
    · -- comment token
      have hnc := nonComment_cons_comment hCom ts
      have hred : assembleTokens b (t :: ts) = assembleTokens b ts := by
        simp [assembleTokens, hCom, TokenInstruction, TokenComment, TokenNumberLiteral, TokenRuneLiteral]
      obtain ⟨ih1, ih2⟩ := ih b hvts
      constructor
      · rw [hred, ih1, unexpectedInstructionCondition, unexpectedInstructionCondition, hnc]
      · intro ws h
        rw [hred] at h
        rw [ih2 ws h, hnc]
    · -- number literal token
      have hnc : nonComment (t :: ts) = t :: nonComment ts :=
        nonComment_cons_keep (by rw [hNum]; decide) ts
      have hred : assembleTokens b (t :: ts) =
          (assembleTokens false ts).map (fun ws => t.Value :: ws) := by
        simp [assembleTokens, hNum, TokenInstruction, TokenComment, TokenNumberLiteral, TokenRuneLiteral]
      obtain ⟨ih1, ih2⟩ := ih false hvts
      constructor
      · rw [hred, isUnexpected_map, ih1,
          unexpectedInstructionCondition, unexpectedInstructionCondition, hnc,
          hasBadSplit_cons]
        constructor
        · rintro (hbad | ⟨hfalse, -⟩)
          · exact Or.inl (Or.inr hbad)
          · cases hfalse
        · rintro ((⟨b2, l, hfs, hbp⟩ | hbad) | ⟨hb, hhead⟩)
          · exact absurd hbp.1 (by rw [hNum]; decide)
          · exact Or.inl hbad
          · obtain ⟨a, l, hfs, hk⟩ := hhead
            injection hfs with h1 h2
            rw [← h1, hNum] at hk
            exact absurd hk (by decide)
      · intro ws h
        rw [hred] at h
        obtain ⟨ws0, h0, hws⟩ := map_ok_inv h
        rw [hws, ih2 ws0 h0, hnc]
        rfl
    · -- rune literal token
      have hnc : nonComment (t :: ts) = t :: nonComment ts :=
        nonComment_cons_keep (by rw [hRune]; decide) ts
      have hred : assembleTokens b (t :: ts) =
          (assembleTokens false ts).map (fun ws => t.Value :: ws) := by
        simp [assembleTokens, hRune, TokenInstruction, TokenComment, TokenNumberLiteral, TokenRuneLiteral]
      obtain ⟨ih1, ih2⟩ := ih false hvts
      constructor
      · rw [hred, isUnexpected_map, ih1,
          unexpectedInstructionCondition, unexpectedInstructionCondition, hnc,
          hasBadSplit_cons]
        constructor
        · rintro (hbad | ⟨hfalse, -⟩)
          · exact Or.inl (Or.inr hbad)
          · cases hfalse
        · rintro ((⟨b2, l, hfs, hbp⟩ | hbad) | ⟨hb, hhead⟩)
          · exact absurd hbp.1 (by rw [hRune]; decide)
          · exact Or.inl hbad
          · obtain ⟨a, l, hfs, hk⟩ := hhead
            injection hfs with h1 h2
            rw [← h1, hRune] at hk
            exact absurd hk (by decide)
      · intro ws h
        rw [hred] at h
        obtain ⟨ws0, h0, hws⟩ := map_ok_inv h
        rw [hws, ih2 ws0 h0, hnc]
        rfl

/-- C6: for every token sequence (of the four token kinds the tokenizer can
produce), the assembler loop reports the "unexpected instruction" error
exactly when an instruction token's preceding non-comment token is an
argument-requiring instruction (SETA, SETI, JUMP, JNEQ); number and rune
literals are always accepted, clear the pending-argument state, and are
emitted as data words; comments are dropped with no effect on that state —
so on success the program is exactly the non-comment token values in
order. -/
theorem assemble_unexpected_instruction_characterization (ts : List Token)
    (hv : ∀ t ∈ ts, validKind t) :
    (isUnexpectedInstructionError (assembleTokens false ts) = true ↔
      unexpectedInstructionCondition ts) ∧
    (∀ ws, assembleTokens false ts = .ok ws → ws = (nonComment ts).map Token.Value) := by
  obtain ⟨h1, h2⟩ := assembleTokens_characterization ts false hv
  refine ⟨?_, h2⟩
  rw [h1]
  constructor
  · rintro (h | ⟨hfalse, -⟩)
    · exact h
    · cases hfalse
  · exact Or.inl

/-- C6 witness: `SETA` directly followed by `NOOP` is the unexpected
instruction error, and a lone `NOOP` token assembles to its opcode word. -/
theorem assemble_unexpected_instruction_characterization_witness :
    isUnexpectedInstructionError (assembleTokens false [tokSETA, tokNOOP]) = true ∧
    ([OpNOOP] : List Word) = (nonComment [tokNOOP]).map Token.Value := by
  have hv1 : ∀ t ∈ [tokSETA, tokNOOP], validKind t := by
    intro t ht
    simp only [List.mem_cons, List.not_mem_nil, or_false] at ht
    rcases ht with h | h <;> subst h <;> exact Or.inl rfl
  have hv2 : ∀ t ∈ [tokNOOP], validKind t := by
    intro t ht
    simp only [List.mem_cons, List.not_mem_nil, or_false] at ht
    subst ht
    exact Or.inl rfl
  have h1 := assemble_unexpected_instruction_characterization [tokSETA, tokNOOP] hv1
  have h2 := assemble_unexpected_instruction_characterization [tokNOOP] hv2
  refine ⟨h1.1.mpr ⟨[], tokSETA, tokNOOP, [], by rfl, rfl, by decide, rfl⟩,
    h2.2 [OpNOOP] (by rfl)⟩

/-- A non-eof peek really is the character at the current position. -/
lemma peek_get {t : tokenizer} (h : ¬ t.peek = eofChar) :
    t.input.get? t.pos = some t.peek := by
  unfold tokenizer.peek at h ⊢
  unfold List.getD at h ⊢
  cases hg : t.input.get? t.pos with
  | none => rw [hg] at h; exact absurd rfl h
  | some c => rfl

/-- Newline count of a prefix extended by one character. -/
lemma countNL_take_succ {input : List Char} {p : Nat} {c : Char}
    (h : input.get? p = some c) :
    countNL (input.take (p + 1)) =
      countNL (input.take p) + (if c = '\n' then 1 else 0) := by
  have hx : input[p]? = some c := by rw [← List.get?_eq_getElem?]; exact h
  rw [countNL, List.take_succ, hx, List.countP_append, Option.toList_some]
  simp [countNL, List.countP_cons]

/-- A successful resolution records the lexeme verbatim as `RawToken`. -/
lemma newToken_raw {raw : List Char} {tok : Token} (h : newToken raw = .ok tok) :
    tok.RawToken = String.mk raw := by
  simp only [newToken] at h
  split at h
  · injection h with h3
    rw [← h3]
  · split at h
    · injection h with h3
      rw [← h3]
    · split at h
      · injection h with h3
        rw [← h3]
      · split at h
        · injection h with h3
          rw [← h3]
        · cases h

/-- `emit` when the lexeme resolves. -/
lemma emit_ok {t : tokenizer} {tok : Token} (h : newToken t.lexeme = .ok tok) :
    t.emit = { t with emits := t.emits ++ [(t.start, { tok with Line := t.line })] } := by
  unfold tokenizer.emit
  rw [h]

/-- `emit` when the lexeme does not resolve. -/
lemma emit_error {t : tokenizer} {e : String} (h : newToken t.lexeme = .error e) :
    t.emit =
      { t with
        err := some (toString t.line ++ ": syntax error: " ++ e),
        emits := t.emits ++
          [(t.start, { Kind := 0, Value := 0, RawToken := "", Line := t.line, Col := 0 })] } := by
  unfold tokenizer.emit
  rw [h]

/-- `emit` appends to the result list. -/
lemma emit_emits_extend (t : tokenizer) : ∃ add, t.emit.emits = t.emits ++ add := by
  unfold tokenizer.emit
  cases newToken t.lexeme with
  | ok tok => exact ⟨_, rfl⟩
  | error e => exact ⟨_, rfl⟩

/-- A single scanning step appends to the result list. -/
lemma tstep_emits (ph : TPhase) (t : tokenizer) :
    ∃ add, (tstep ph t).2.emits = t.emits ++ add := by
  cases ph <;> simp only [tstep] <;> (try split_ifs) <;>
    first
      | exact ⟨[], (List.append_nil _).symm⟩
      | exact emit_emits_extend _

/-- A single scanning step does not change the input. -/
lemma tstep_input (ph : TPhase) (t : tokenizer) : (tstep ph t).2.input = t.input := by
  have hemit : ∀ u : tokenizer, u.emit.input = u.input := by
    intro u
    unfold tokenizer.emit
    cases newToken u.lexeme <;> rfl
  cases ph <;> simp only [tstep] <;> (try split_ifs) <;>
    first
      | rfl
      | exact hemit _

/-- Unfolding the driver when the step keeps scanning. -/
lemma tokRun_cont {fuel : Nat} {ph : TPhase} {t : tokenizer} {ph' : TPhase}
    {t' : tokenizer} {emitsF : List (Nat × Token)} (hts : tstep ph t = (ph', t'))
    (hph : ¬ ph' = TPhase.done) (hrun : tokRun (fuel + 1) ph t = .ok emitsF) :
    t'.err = none ∧ tokRun fuel ph' t' = .ok emitsF := by
  simp only [tokRun, hts] at hrun
  cases herr : t'.err with
  | some e => rw [herr] at hrun; simp at hrun
  | none =>
    rw [herr] at hrun
    rw [if_neg hph] at hrun
    exact ⟨rfl, hrun⟩

/-- Unfolding the driver when the step terminates the scan. -/
lemma tokRun_done {fuel : Nat} {ph : TPhase} {t : tokenizer} {t' : tokenizer}
    {emitsF : List (Nat × Token)} (hts : tstep ph t = (.done, t'))
    (hrun : tokRun (fuel + 1) ph t = .ok emitsF) :
    t'.err = none ∧ emitsF = t'.emits := by
  simp only [tokRun, hts] at hrun
  cases herr : t'.err with
  | some e => rw [herr] at hrun; simp at hrun
  | none =>
    rw [herr] at hrun
    rw [if_pos trivial] at hrun
    injection hrun with h
    exact ⟨rfl, h.symm⟩

/-- Whatever the driver returns extends the tokens already emitted. -/
lemma tokRun_emits_extend : ∀ (fuel : Nat) (ph : TPhase) (t : tokenizer)
    (emitsF : List (Nat × Token)), tokRun fuel ph t = .ok emitsF →
    ∃ rest, emitsF = t.emits ++ rest := by
  intro fuel
  induction fuel with
  | zero => intro ph t emitsF h; simp [tokRun] at h
  | succ fuel ih =>
    intro ph t emitsF h
    obtain ⟨add, hadd⟩ := tstep_emits ph t
    rcases hs : tstep ph t with ⟨ph', t'⟩
    rw [hs] at hadd
    by_cases hd : ph' = TPhase.done
    · subst hd
      obtain ⟨-, hemits⟩ := tokRun_done hs h
      exact ⟨add, by rw [hemits, hadd]⟩
    · obtain ⟨-, hrec⟩ := tokRun_cont hs hd h
      obtain ⟨rest, hr⟩ := ih ph' t' emitsF hrec
      exact ⟨add ++ rest, by rw [hr, hadd, List.append_assoc]⟩

/-- From inside a rune literal, a successful scan eventually emits the
pending lexeme — which spans from `start` past the current position — as a
token whose raw text is exactly that slice of the input. -/
lemma inRune_future : ∀ (fuel : Nat) (t : tokenizer) (emitsF : List (Nat × Token)),
    tokRun fuel .inRuneLiteral t = .ok emitsF →
    ∃ p' tok, t.pos ≤ p' ∧ (t.start, tok) ∈ emitsF ∧
      tok.RawToken = String.mk ((t.input.drop t.start).take (p' - t.start)) := by
  intro fuel
  induction fuel with
  | zero => intro t emitsF h; simp [tokRun] at h
  | succ fuel ih =>
    intro t emitsF hrun
    by_cases hc0 : t.peek = eofChar
    · have hts : tstep .inRuneLiteral t =
          (.done, { t with err := some "unexpected EOF in rune literal" }) := by
        simp only [tstep]
        rw [if_pos hc0]
      obtain ⟨herr, -⟩ := tokRun_done hts hrun
      simp at herr
    · by_cases hc1 : t.peek = '\''
      · have hts : tstep .inRuneLiteral t =
            (.wantToken, ({ t with pos := t.pos + 1 } : tokenizer).emit) := by
          simp only [tstep]
          rw [if_neg hc0, if_pos hc1]
        cases hnt : newToken ({ t with pos := t.pos + 1 } : tokenizer).lexeme with
        | error e =>
          rw [emit_error hnt] at hts
          obtain ⟨herr, -⟩ := tokRun_cont hts (by decide) hrun
          simp at herr
        | ok tok =>
          rw [emit_ok hnt] at hts
          obtain ⟨-, hrec⟩ := tokRun_cont hts (by decide) hrun
          obtain ⟨rest, hext⟩ := tokRun_emits_extend fuel _ _ _ hrec
          refine ⟨t.pos + 1, { tok with Line := t.line }, Nat.le_succ _, ?_, ?_⟩
          · rw [hext]
            simp
          · have hraw := newToken_raw hnt
            exact hraw
      · have hts : tstep .inRuneLiteral t =
            (.inRuneLiteral, { t with pos := t.pos + 1 }) := by
          simp only [tstep]
          rw [if_neg hc0, if_neg hc1]
        obtain ⟨-, hrec⟩ := tokRun_cont hts (by decide) hrun
        obtain ⟨p', tok, hp, hmem, hraw⟩ := ih { t with pos := t.pos + 1 } emitsF hrec
        exact ⟨p', tok, Nat.le_trans (Nat.le_succ _) hp, hmem, hraw⟩

/-- The central line-number invariant: as long as no emitted token's raw
text spans a newline, every token the scan will still emit is stamped with
one plus the number of newlines before its lexeme's start — its physical
line.  The invariant needs the current line counter to agree with the
newline count up to the scan position, with no newline inside the pending
partial lexeme. -/
lemma tokRun_line_ok : ∀ (fuel : Nat) (ph : TPhase) (t : tokenizer)
    (emitsF : List (Nat × Token)),
    tokRun fuel ph t = .ok emitsF →
    (∀ e ∈ emitsF, ¬ ('\n' ∈ e.2.RawToken.data)) →
    t.line = 1 + countNL (t.input.take t.pos) →
    countNL (t.input.take t.start) = countNL (t.input.take t.pos) →
    t.start ≤ t.pos →
    ∀ e ∈ emitsF, e ∈ t.emits ∨ e.2.Line = 1 + countNL (t.input.take e.1) := by
  intro fuel
  induction fuel with
  | zero => intro ph t emitsF h; simp [tokRun] at h
  | succ fuel ih =>
    intro ph t emitsF hrun hfree hline hstart hle
    cases ph with
    | wantToken =>
      by_cases hc0 : t.peek = eofChar
      · have hts : tstep .wantToken t = (.done, t) := by
          simp only [tstep]
          rw [if_pos hc0]
        obtain ⟨-, hemits⟩ := tokRun_done hts hrun
        intro e he
        rw [hemits] at he
        exact Or.inl he
      · have hget0 := peek_get hc0
        by_cases hc1 : t.peek = '\n'
        · have hget : t.input.get? t.pos = some '\n' := by rw [← hc1]; exact hget0
          have hts : tstep .wantToken t =
              (.wantToken, { t with pos := t.pos + 1, line := t.line + 1, start := t.pos + 1 }) := by
            simp only [tstep]
            rw [if_neg hc0, if_pos hc1]
          obtain ⟨-, hrec⟩ := tokRun_cont hts (by decide) hrun
          have hcnt : countNL (t.input.take (t.pos + 1)) =
              countNL (t.input.take t.pos) + 1 := by
            rw [countNL_take_succ hget]
            simp
          have hres := ih .wantToken _ emitsF hrec hfree
            (by show t.line + 1 = 1 + countNL (t.input.take (t.pos + 1))
                rw [hcnt, hline]; omega)
            (by show countNL (t.input.take (t.pos + 1)) =
                  countNL (t.input.take (t.pos + 1))
                rfl)
            (by show t.pos + 1 ≤ t.pos + 1
                exact Nat.le_refl _)
          intro e he
          rcases hres e he with hin | hok
          · exact Or.inl hin
          · exact Or.inr hok
        · by_cases hc2 : t.peek = ' ' ∨ t.peek = ';'
          · have hts : tstep .wantToken t =
                (.wantToken, { t with pos := t.pos + 1, start := t.pos + 1 }) := by
              simp only [tstep]
              rw [if_neg hc0, if_neg hc1, if_pos hc2]
            obtain ⟨-, hrec⟩ := tokRun_cont hts (by decide) hrun
            have hcnt : countNL (t.input.take (t.pos + 1)) =
                countNL (t.input.take t.pos) := by
              rw [countNL_take_succ hget0, if_neg hc1]; rfl
            have hres := ih .wantToken _ emitsF hrec hfree
              (by show t.line = 1 + countNL (t.input.take (t.pos + 1))
                  rw [hcnt]; exact hline)
              (by show countNL (t.input.take (t.pos + 1)) =
                    countNL (t.input.take (t.pos + 1))
                  rfl)
              (by show t.pos + 1 ≤ t.pos + 1
                  exact Nat.le_refl _)
            intro e he
            rcases hres e he with hin | hok
            · exact Or.inl hin
            · exact Or.inr hok
          · have hts : tstep .wantToken t = (.inToken, t) := by
              simp only [tstep]
              rw [if_neg hc0, if_neg hc1, if_neg hc2]
            obtain ⟨-, hrec⟩ := tokRun_cont hts (by decide) hrun
            exact ih .inToken t emitsF hrec hfree hline hstart hle
    | inToken =>
      by_cases hc0 : t.peek = eofChar
      · have hts0 : tstep .inToken t = (.done, t.emit) := by
          simp only [tstep]
          rw [if_pos hc0]
        cases hnt : newToken t.lexeme with
        | error e0 =>
          rw [emit_error hnt] at hts0
          obtain ⟨herr, -⟩ := tokRun_done hts0 hrun
          simp at herr
        | ok tok =>
          rw [emit_ok hnt] at hts0
          obtain ⟨-, hemits⟩ := tokRun_done hts0 hrun
          intro e he
          rw [hemits] at he
          rcases List.mem_append.mp he with h1 | h2
          · exact Or.inl h1
          · have he2 : e = (t.start, { tok with Line := t.line }) := by simpa using h2
            refine Or.inr ?_
            rw [he2]
            show t.line = 1 + countNL (t.input.take t.start)
            rw [hline, hstart]
      · have hget0 := peek_get hc0
        by_cases hc1 : t.peek = '/'
        · by_cases hc1b : ({ t with pos := t.pos + 1 } : tokenizer).peek = '/'
          · have hts : tstep .inToken t =
                (.inComment, { t with pos := t.pos + 1 }) := by
              simp only [tstep]
              rw [if_neg hc0, if_pos hc1, if_pos hc1b]
            obtain ⟨-, hrec⟩ := tokRun_cont hts (by decide) hrun
            have hcnt : countNL (t.input.take (t.pos + 1)) =
                countNL (t.input.take t.pos) := by
              rw [countNL_take_succ hget0, if_neg (by rw [hc1]; decide)]; rfl
            have hres := ih .inComment _ emitsF hrec hfree
              (by show t.line = 1 + countNL (t.input.take (t.pos + 1))
                  rw [hcnt]; exact hline)
              (by show countNL (t.input.take t.start) =
                    countNL (t.input.take (t.pos + 1))
                  rw [hcnt]; exact hstart)
              (by show t.start ≤ t.pos + 1
                  exact Nat.le_trans hle (Nat.le_succ _))
            intro e he
            rcases hres e he with hin | hok
            · exact Or.inl hin
            · exact Or.inr hok
          · obtain ⟨herr, -⟩ := tokRun_done (by
              simp only [tstep]
              rw [if_neg hc0, if_pos hc1, if_neg hc1b]) hrun
            simp at herr
        · by_cases hc2 : t.peek = '\n' ∨ t.peek = ' ' ∨ t.peek = ';'
          · have hts0 : tstep .inToken t = (.wantToken, t.emit) := by
              simp only [tstep]
              rw [if_neg hc0, if_neg hc1, if_pos hc2]
            cases hnt : newToken t.lexeme with
            | error e0 =>
              rw [emit_error hnt] at hts0
              obtain ⟨herr, -⟩ := tokRun_cont hts0 (by decide) hrun
              simp at herr
            | ok tok =>
              rw [emit_ok hnt] at hts0
              obtain ⟨-, hrec⟩ := tokRun_cont hts0 (by decide) hrun
              have hres := ih .wantToken _ emitsF hrec hfree
                (by show t.line = 1 + countNL (t.input.take t.pos); exact hline)
                (by show countNL (t.input.take t.start) = countNL (t.input.take t.pos)
                    exact hstart)
                (by show t.start ≤ t.pos; exact hle)
              intro e he
              rcases hres e he with hin | hok
              · rcases List.mem_append.mp hin with h1 | h2
                · exact Or.inl h1
                · have he2 : e = (t.start, { tok with Line := t.line }) := by simpa using h2
                  refine Or.inr ?_
                  rw [he2]
                  show t.line = 1 + countNL (t.input.take t.start)
                  rw [hline, hstart]
              · exact Or.inr hok
          · by_cases hc3 : t.peek = '\''
            · have hts : tstep .inToken t =
                  (.inRuneLiteral, { t with pos := t.pos + 1 }) := by
                simp only [tstep]
                rw [if_neg hc0, if_neg hc1, if_neg hc2, if_pos hc3]
              obtain ⟨-, hrec⟩ := tokRun_cont hts (by decide) hrun
              have hcnt : countNL (t.input.take (t.pos + 1)) =
                  countNL (t.input.take t.pos) := by
                rw [countNL_take_succ hget0, if_neg (by rw [hc3]; decide)]; rfl
              have hres := ih .inRuneLiteral _ emitsF hrec hfree
                (by show t.line = 1 + countNL (t.input.take (t.pos + 1))
                    rw [hcnt]; exact hline)
                (by show countNL (t.input.take t.start) =
                      countNL (t.input.take (t.pos + 1))
                    rw [hcnt]; exact hstart)
                (by show t.start ≤ t.pos + 1
                    exact Nat.le_trans hle (Nat.le_succ _))
              intro e he
              rcases hres e he with hin | hok
              · exact Or.inl hin
              · exact Or.inr hok
            · have hts : tstep .inToken t = (.inToken, { t with pos := t.pos + 1 }) := by
                simp only [tstep]
                rw [if_neg hc0, if_neg hc1, if_neg hc2, if_neg hc3]
              obtain ⟨-, hrec⟩ := tokRun_cont hts (by decide) hrun
              have hnl : ¬ t.peek = '\n' := fun h => hc2 (Or.inl h)
              have hcnt : countNL (t.input.take (t.pos + 1)) =
                  countNL (t.input.take t.pos) := by
                rw [countNL_take_succ hget0, if_neg hnl]; rfl
              have hres := ih .inToken _ emitsF hrec hfree
                (by show t.line = 1 + countNL (t.input.take (t.pos + 1))
                    rw [hcnt]; exact hline)
                (by show countNL (t.input.take t.start) =
                      countNL (t.input.take (t.pos + 1))
                    rw [hcnt]; exact hstart)
                (by show t.start ≤ t.pos + 1
                    exact Nat.le_trans hle (Nat.le_succ _))
              intro e he
              rcases hres e he with hin | hok
              · exact Or.inl hin
              · exact Or.inr hok
    | inRuneLiteral =>
      by_cases hc0 : t.peek = eofChar
      · have hts : tstep .inRuneLiteral t =
            (.done, { t with err := some "unexpected EOF in rune literal" }) := by
          simp only [tstep]
          rw [if_pos hc0]
        obtain ⟨herr, -⟩ := tokRun_done hts hrun
        simp at herr
      · have hget0 := peek_get hc0
        by_cases hc1 : t.peek = '\''
        · have hts0 : tstep .inRuneLiteral t =
              (.wantToken, ({ t with pos := t.pos + 1 } : tokenizer).emit) := by
            simp only [tstep]
            rw [if_neg hc0, if_pos hc1]
          cases hnt : newToken ({ t with pos := t.pos + 1 } : tokenizer).lexeme with
          | error e0 =>
            rw [emit_error hnt] at hts0
            obtain ⟨herr, -⟩ := tokRun_cont hts0 (by decide) hrun
            simp at herr
          | ok tok =>
            rw [emit_ok hnt] at hts0
            obtain ⟨-, hrec⟩ := tokRun_cont hts0 (by decide) hrun
            have hcnt : countNL (t.input.take (t.pos + 1)) =
                countNL (t.input.take t.pos) := by
              rw [countNL_take_succ hget0, if_neg (by rw [hc1]; decide)]; rfl
            have hres := ih .wantToken _ emitsF hrec hfree
              (by show t.line = 1 + countNL (t.input.take (t.pos + 1))
                  rw [hcnt]; exact hline)
              (by show countNL (t.input.take t.start) =
                    countNL (t.input.take (t.pos + 1))
                  rw [hcnt]; exact hstart)
              (by show t.start ≤ t.pos + 1
                  exact Nat.le_trans hle (Nat.le_succ _))
            intro e he
            rcases hres e he with hin | hok
            · rcases List.mem_append.mp hin with h1 | h2
              · exact Or.inl h1
              · have he2 : e = (t.start, { tok with Line := t.line }) := by simpa using h2
                refine Or.inr ?_
                rw [he2]
                show t.line = 1 + countNL (t.input.take t.start)
                rw [hline, hstart]
            · exact Or.inr hok
        · have hts : tstep .inRuneLiteral t =
              (.inRuneLiteral, { t with pos := t.pos + 1 }) := by
            simp only [tstep]
            rw [if_neg hc0, if_neg hc1]
          obtain ⟨-, hrec⟩ := tokRun_cont hts (by decide) hrun
          by_cases hnl : t.peek = '\n'
          · -- the pending rune literal spans a newline: its eventual token
            -- contradicts the newline-free hypothesis
            exfalso
            obtain ⟨p', tok, hp, hmem, hraw⟩ := inRune_future fuel _ emitsF hrec
            have hp' : t.pos + 1 ≤ p' := hp
            apply hfree (t.start, tok) hmem
            show ('\n') ∈ tok.RawToken.data
            rw [hraw]
            show ('\n') ∈ (t.input.drop t.start).take (p' - t.start)
            have hk : ((t.input.drop t.start).take (p' - t.start)).get? (t.pos - t.start) =
                some '\n' := by
              rw [List.get?_take (by omega), List.get?_drop,
                show t.start + (t.pos - t.start) = t.pos from by omega, ← hnl]
              exact hget0
            exact List.get?_mem hk
          · have hcnt : countNL (t.input.take (t.pos + 1)) =
                countNL (t.input.take t.pos) := by
              rw [countNL_take_succ hget0, if_neg hnl]; rfl
            have hres := ih .inRuneLiteral _ emitsF hrec hfree
              (by show t.line = 1 + countNL (t.input.take (t.pos + 1))
                  rw [hcnt]; exact hline)
              (by show countNL (t.input.take t.start) =
                    countNL (t.input.take (t.pos + 1))
                  rw [hcnt]; exact hstart)
              (by show t.start ≤ t.pos + 1
                  exact Nat.le_trans hle (Nat.le_succ _))
            intro e he
            rcases hres e he with hin | hok
            · exact Or.inl hin
            · exact Or.inr hok
    | inComment =>
      by_cases hc0 : t.peek = eofChar
      · have hts0 : tstep .inComment t = (.done, t.emit) := by
          simp only [tstep]
          rw [if_pos hc0]
        cases hnt : newToken t.lexeme with
        | error e0 =>
          rw [emit_error hnt] at hts0
          obtain ⟨herr, -⟩ := tokRun_done hts0 hrun
          simp at herr
        | ok tok =>
          rw [emit_ok hnt] at hts0
          obtain ⟨-, hemits⟩ := tokRun_done hts0 hrun
          intro e he
          rw [hemits] at he
          rcases List.mem_append.mp he with h1 | h2
          · exact Or.inl h1
          · have he2 : e = (t.start, { tok with Line := t.line }) := by simpa using h2
            refine Or.inr ?_
            rw [he2]
            show t.line = 1 + countNL (t.input.take t.start)
            rw [hline, hstart]
      · have hget0 := peek_get hc0
        by_cases hc1 : t.peek = '\n'
        · have hts0 : tstep .inComment t = (.wantToken, t.emit) := by
            simp only [tstep]
            rw [if_neg hc0, if_pos hc1]
          cases hnt : newToken t.lexeme with
          | error e0 =>
            rw [emit_error hnt] at hts0
            obtain ⟨herr, -⟩ := tokRun_cont hts0 (by decide) hrun
            simp at herr
          | ok tok =>
            rw [emit_ok hnt] at hts0
            obtain ⟨-, hrec⟩ := tokRun_cont hts0 (by decide) hrun
            have hres := ih .wantToken _ emitsF hrec hfree
              (by show t.line = 1 + countNL (t.input.take t.pos); exact hline)
              (by show countNL (t.input.take t.start) = countNL (t.input.take t.pos)
                  exact hstart)
              (by show t.start ≤ t.pos; exact hle)
            intro e he
            rcases hres e he with hin | hok
            · rcases List.mem_append.mp hin with h1 | h2
              · exact Or.inl h1
              · have he2 : e = (t.start, { tok with Line := t.line }) := by simpa using h2
                refine Or.inr ?_
                rw [he2]
                show t.line = 1 + countNL (t.input.take t.start)
                rw [hline, hstart]
            · exact Or.inr hok
        · have hts : tstep .inComment t = (.inComment, { t with pos := t.pos + 1 }) := by
            simp only [tstep]
            rw [if_neg hc0, if_neg hc1]
          obtain ⟨-, hrec⟩ := tokRun_cont hts (by decide) hrun
          have hcnt : countNL (t.input.take (t.pos + 1)) =
              countNL (t.input.take t.pos) := by
            rw [countNL_take_succ hget0, if_neg hc1]; rfl
          have hres := ih .inComment _ emitsF hrec hfree
            (by show t.line = 1 + countNL (t.input.take (t.pos + 1))
                rw [hcnt]; exact hline)
            (by show countNL (t.input.take t.start) =
                  countNL (t.input.take (t.pos + 1))
                rw [hcnt]; exact hstart)
            (by show t.start ≤ t.pos + 1
                exact Nat.le_trans hle (Nat.le_succ _))
          intro e he
          rcases hres e he with hin | hok
          · exact Or.inl hin
          · exact Or.inr hok
    | done =>
      have hts : tstep .done t = (.done, t) := rfl
      obtain ⟨-, hemits⟩ := tokRun_done hts hrun
      intro e he
      rw [hemits] at he
      exact Or.inl he

/-- C7 (counterexample): the claim "every emitted token's line number equals
the physical line on which its lexeme starts" is false.  On the input
`"'\n'\n5"` the token whose lexeme starts at index 4 (the literal `5`) is
stamped with line 2, but two newlines precede index 4, so its physical line
is 3: the newline consumed inside a rune literal never increments the line
counter. -/
theorem tokenize_line_number_counterexample :
    TokenizeT runeNewlineSource = .ok
      [(0, { Kind := TokenRuneLiteral, Value := 10, RawToken := "'\n'", Line := 1, Col := 0 }),
       (4, { Kind := TokenNumberLiteral, Value := 5, RawToken := "5", Line := 2, Col := 0 })] ∧
    1 + countNL (runeNewlineSource.data.take 4) = 3 ∧ (2 : Nat) ≠ 3 :=
  ⟨by rfl, by decide, by decide⟩

/-- C7 (amended): `Tokenize "NOOP\nSETA 5 \n HALT\n"` yields exactly the four
expected tokens with lines 1, 2, 2, 3; and in general every emitted token's
line number is 1-based and equals the physical line on which its lexeme
starts, PROVIDED no emitted token's raw text spans a newline (a rune literal
containing a newline breaks the correspondence, as the counterexample
shows). -/
theorem tokenize_line_numbers (data : String) (emitsF : List (Nat × Token))
    (hok : TokenizeT data = .ok emitsF)
    (hfree : ∀ e ∈ emitsF, ¬ ('\n') ∈ e.2.RawToken.data) :
    Tokenize exampleSource = .ok
      [{ Kind := TokenInstruction, Value := OpNOOP, RawToken := "NOOP", Line := 1, Col := 0 },
       { Kind := TokenInstruction, Value := OpSETA, RawToken := "SETA", Line := 2, Col := 0 },
       { Kind := TokenNumberLiteral, Value := 5, RawToken := "5", Line := 2, Col := 0 },
       { Kind := TokenInstruction, Value := OpHALT, RawToken := "HALT", Line := 3, Col := 0 }] ∧
    ∀ e ∈ emitsF, e.2.Line = 1 + countNL (data.data.take e.1) := by
  constructor
  · rfl
  · have hok' : tokRun (3 * data.length + 3) .wantToken { input := data.data } =
        .ok emitsF := hok
    have h := tokRun_line_ok (3 * data.length + 3) .wantToken { input := data.data }
      emitsF hok' hfree rfl rfl (Nat.le_refl 0)
    intro e he
    rcases h e he with hin | hok2
    · exact absurd hin (List.not_mem_nil e)
    · exact hok2

/-- C7 witness: the amended theorem applied to the spec's concrete example,
instantiated at the HALT token, whose lexeme starts at index 14 on physical
line 3. -/
theorem tokenize_line_numbers_witness :
    ({ Kind := TokenInstruction, Value := OpHALT, RawToken := "HALT", Line := 3,
       Col := 0 } : Token).Line = 1 + countNL (exampleSource.data.take 14) :=
  (tokenize_line_numbers exampleSource
      [(0, { Kind := TokenInstruction, Value := OpNOOP, RawToken := "NOOP", Line := 1, Col := 0 }),
       (5, { Kind := TokenInstruction, Value := OpSETA, RawToken := "SETA", Line := 2, Col := 0 }),
       (10, { Kind := TokenNumberLiteral, Value := 5, RawToken := "5", Line := 2, Col := 0 }),
       (14, { Kind := TokenInstruction, Value := OpHALT, RawToken := "HALT", Line := 3, Col := 0 })]
      (by rfl) (by decide)).2
    (14, { Kind := TokenInstruction, Value := OpHALT, RawToken := "HALT", Line := 3, Col := 0 })
    (by decide)

end GMachine
